import Mathlib

/-!
Shallow embedding of `src/bitfield.py`: a `BitField` descriptor over 32-bit
words, with mask construction, `extract`, `insert`, `extract_signed`, and the
free function `sign_extend`.  Python's arbitrary-precision non-negative words
are modelled as `Nat`; user-facing integer arguments that the source validates
with `assert` are modelled as `Int`, and an assertion failure is `none`.
-/

/-- `WORD_SIZE = 32`, the word size of the simulated machine. -/
def WORD_SIZE : Nat := 32

/-- First loop of `BitField.__init__`: `n` iterations of
`mask = (mask << 1) | 1` starting from accumulator `m`. -/
def maskOnes : Nat → Nat → Nat
  | 0, m => m
  | n + 1, m => maskOnes n ((m <<< 1) ||| 1)

/-- Second loop of `BitField.__init__`: `n` iterations of `mask = mask << 1`. -/
def maskShift : Nat → Nat → Nat
  | 0, m => m
  | n + 1, m => maskShift n (m <<< 1)

/-- The `BitField` object: the validated bit range and the derived mask. -/
structure BitField where
  from_bit : Nat
  to_bit : Nat
  mask : Nat
  deriving DecidableEq

/-- `BitField.__init__`: validates
`0 <= from_bit < WORD_SIZE` and `from_bit <= to_bit <= WORD_SIZE`
(assertion failure is `none`), then builds the mask by the two loops. -/
def BitField.init (from_bit to_bit : Int) : Option BitField :=
  if 0 ≤ from_bit ∧ from_bit < (WORD_SIZE : Int) ∧
      from_bit ≤ to_bit ∧ to_bit ≤ (WORD_SIZE : Int) then
    some { from_bit := from_bit.toNat
           to_bit := to_bit.toNat
           mask := maskShift from_bit.toNat
             (maskOnes (to_bit - from_bit + 1).toNat 0) }
  else
    none

/-- `BitField.extract`: `(self.mask & word) >> self.from_bit`. -/
def BitField.extract (bf : BitField) (word : Nat) : Nat :=
  (bf.mask &&& word) >>> bf.from_bit

/-- `BitField.insert`: `word | ((value << self.from_bit) & self.mask)`. -/
def BitField.insert (bf : BitField) (value word : Nat) : Nat :=
  word ||| ((value <<< bf.from_bit) &&& bf.mask)

/-- `sign_extend(field, width)`: asserts `width > 1` and
`0 <= field < 1 << (width + 1)` (failure is `none`), then subtracts the
sign bit when it is set. -/
def sign_extend (field width : Int) : Option Int :=
  if 1 < width then
    if 0 ≤ field ∧ field < 2 ^ (width + 1).toNat then
      let sign_bit : Nat := 2 ^ (width - 1).toNat
      let mask : Nat := sign_bit - 1
      if field.toNat &&& sign_bit ≠ 0 then
        some (((field.toNat &&& mask : Nat) : Int) - (sign_bit : Int))
      else
        some field
    else
      none
  else
    none

/-- `BitField.extract_signed`:
`sign_extend(self.extract(word), self.to_bit - self.from_bit + 1)`. -/
def BitField.extract_signed (bf : BitField) (word : Nat) : Option Int :=
  sign_extend (bf.extract word) ((bf.to_bit : Int) - (bf.from_bit : Int) + 1)

/-! ### Mask construction lemmas -/

theorem shiftLeft_one_or_one (m : Nat) : (m <<< 1) ||| 1 = 2 * m + 1 := by
  have h := Nat.mul_add_lt_is_or (i := 1) (b := 1) (by norm_num) m
  rw [Nat.shiftLeft_eq, Nat.mul_comm, ← h]

theorem maskOnes_eq (n m : Nat) : maskOnes n m = m * 2 ^ n + (2 ^ n - 1) := by
  induction n generalizing m with
  | zero => simp [maskOnes]
  | succ k ih =>
    have h1 : (1:Nat) ≤ 2 ^ k := Nat.one_le_two_pow
    have h2 : (1:Nat) ≤ 2 ^ (k + 1) := Nat.one_le_two_pow
    rw [maskOnes, ih, shiftLeft_one_or_one]
    zify [h1, h2]
    ring

theorem maskShift_eq (n m : Nat) : maskShift n m = m * 2 ^ n := by
  induction n generalizing m with
  | zero => simp [maskShift]
  | succ k ih =>
    rw [maskShift, ih, Nat.shiftLeft_eq]
    ring

/-- Everything construction guarantees about an accepted `BitField`. -/
theorem init_spec {f t : Int} {bf : BitField} (h : BitField.init f t = some bf) :
    0 ≤ f ∧ f < 32 ∧ f ≤ t ∧ t ≤ 32 ∧
    bf.from_bit = f.toNat ∧ bf.to_bit = t.toNat ∧ bf.from_bit ≤ bf.to_bit ∧
    bf.mask = (2 ^ (bf.to_bit - bf.from_bit + 1) - 1) * 2 ^ bf.from_bit := by
  unfold BitField.init at h
  split at h
  case isTrue hc =>
    obtain ⟨h0, h1, h2, h3⟩ := hc
    injection h with h
    subst h
    refine ⟨h0, by exact_mod_cast h1, h2, by exact_mod_cast h3, rfl, rfl,
      by simp only []; omega, ?_⟩
    simp only [maskShift_eq, maskOnes_eq, Nat.zero_mul, Nat.zero_add]
    have : (t - f + 1).toNat = t.toNat - f.toNat + 1 := by omega
    rw [this]
  case isFalse => exact absurd h (by simp)

/-- Shift-left form of the accepted mask. -/
theorem mask_shiftLeft {f t : Int} {bf : BitField} (h : BitField.init f t = some bf) :
    bf.mask = (2 ^ (bf.to_bit - bf.from_bit + 1) - 1) <<< bf.from_bit := by
  rw [(init_spec h).2.2.2.2.2.2.2, Nat.shiftLeft_eq]

theorem init_isSome {f t : Int} (h0 : 0 ≤ f) (h1 : f < 32) (h2 : f ≤ t)
    (h3 : t ≤ 32) : ∃ bf, BitField.init f t = some bf := by
  unfold BitField.init
  rw [if_pos ⟨h0, by simp only [WORD_SIZE]; omega, h2, by simp only [WORD_SIZE]; omega⟩]
  exact ⟨_, rfl⟩

theorem and_shiftLeft_distrib (a b n : Nat) :
    (a <<< n) &&& (b <<< n) = (a &&& b) <<< n := by
  apply Nat.eq_of_testBit_eq
  intro i
  simp only [Nat.testBit_and, Nat.testBit_shiftLeft]
  by_cases h : n ≤ i <;> simp [h]

/-- C2: for `0 ≤ from_bit ≤ to_bit ≤ 31` construction succeeds and the mask
equals the closed form `((1 <<< (to_bit - from_bit + 1)) - 1) <<< from_bit`:
its set bits are exactly the contiguous positions `from_bit .. to_bit`. -/
theorem mask_construction_closed_form (f t : Int) (h0 : 0 ≤ f) (h1 : f ≤ t)
    (h2 : t ≤ 31) :
    ∃ bf, BitField.init f t = some bf ∧
      bf.mask = ((1 <<< (t.toNat - f.toNat + 1)) - 1) <<< f.toNat ∧
      ∀ i, bf.mask.testBit i =
        (decide (f.toNat ≤ i) && decide (i ≤ t.toNat)) := by
  obtain ⟨bf, hbf⟩ := init_isSome h0 (by omega) h1 (by omega)
  obtain ⟨_, _, _, _, hf, ht, hft, _⟩ := init_spec hbf
  refine ⟨bf, hbf, ?_, ?_⟩
  · rw [mask_shiftLeft hbf, hf, ht, Nat.one_shiftLeft]
  · intro i
    rw [mask_shiftLeft hbf, hf, ht]
    simp only [Nat.testBit_shiftLeft, Nat.testBit_two_pow_sub_one, ge_iff_le]
    by_cases hfi : f.toNat ≤ i
    · simp only [hfi, decide_True, Bool.true_and]
      rw [decide_eq_decide]
      omega
    · simp [hfi]

theorem mask_construction_closed_form_witness :
    ∃ bf, BitField.init 3 5 = some bf ∧
      bf.mask = ((1 <<< ((5:Int).toNat - (3:Int).toNat + 1)) - 1) <<< (3:Int).toNat ∧
      ∀ i, bf.mask.testBit i =
        (decide ((3:Int).toNat ≤ i) && decide (i ≤ (5:Int).toNat)) :=
  mask_construction_closed_form 3 5 (by norm_num) (by norm_num) (by norm_num)

/-- C5: construction faults exactly when
`0 ≤ from_bit < 32 ∧ from_bit ≤ to_bit ≤ 32` fails; in particular
`BitField(5, 3)` faults and `to_bit = 32` is accepted. -/
theorem init_none_iff :
    (∀ f t : Int, BitField.init f t = none ↔
      ¬ (0 ≤ f ∧ f < 32 ∧ f ≤ t ∧ t ≤ 32)) ∧
    BitField.init 5 3 = none ∧ (BitField.init 0 32).isSome = true := by
  refine ⟨?_, rfl, rfl⟩
  intro f t
  unfold BitField.init
  have hws : (WORD_SIZE : Int) = 32 := by norm_num [WORD_SIZE]
  rw [hws]
  split
  case isTrue h => simp [h]
  case isFalse h => simp [h]

/-- C7 (amended): an accepted `(from_bit, to_bit)` with `to_bit ≤ 31` yields a
mask below `2^32`. -/
theorem mask_lt_two_pow_32 (f t : Int) (bf : BitField)
    (h : BitField.init f t = some bf) (ht : t ≤ 31) : bf.mask < 2 ^ 32 := by
  obtain ⟨h0, h1, h2, _, hf, htb, hft, _⟩ := init_spec h
  apply Nat.lt_pow_two_of_testBit
  intro i hi
  rw [mask_shiftLeft h]
  simp only [Nat.testBit_shiftLeft, Nat.testBit_two_pow_sub_one, ge_iff_le,
    Bool.and_eq_false_imp, decide_eq_true_eq, decide_eq_false_iff_not]
  intro hfi
  omega

theorem mask_lt_two_pow_32_witness :
    BitField.init 0 31 = some ⟨0, 31, 4294967295⟩ ∧
    (BitField.mk 0 31 4294967295).mask < 2 ^ 32 :=
  ⟨rfl, mask_lt_two_pow_32 0 31 _ rfl (by norm_num)⟩

/-- C7 counterexample: `BitField(0, 32)` is accepted by construction, but its
mask is `2^33 - 1`, outside `[0, 2^32 - 1]`. -/
theorem mask_not_32_bit_counterexample :
    (BitField.init 0 32).isSome = true ∧
    Option.elim (BitField.init 0 32) 0 BitField.mask = 2 ^ 33 - 1 ∧
    ¬ Option.elim (BitField.init 0 32) 0 BitField.mask ≤ 2 ^ 32 - 1 := by
  refine ⟨rfl, rfl, by decide⟩

/-! ### extract / insert claims -/

/-- C1: for an accepted range with `to_bit ≤ 31`, a value that fits the field
and a 32-bit word whose bits in `from_bit..to_bit` are all zero,
`extract (insert value word) = value`. -/
theorem extract_insert_roundtrip (f t : Int) (bf : BitField)
    (h : BitField.init f t = some bf) (ht : t ≤ 31) (value word : Nat)
    (hv : value < 2 ^ (bf.to_bit - bf.from_bit + 1)) (hw : word < 2 ^ 32)
    (hz : word &&& bf.mask = 0) :
    bf.extract (bf.insert value word) = value := by
  unfold BitField.extract BitField.insert
  rw [Nat.and_or_distrib_left, Nat.and_comm bf.mask word, hz,
    Nat.and_comm bf.mask ((value <<< bf.from_bit) &&& bf.mask),
    Nat.and_assoc, Nat.and_self, Nat.zero_or,
    mask_shiftLeft h, and_shiftLeft_distrib,
    Nat.and_pow_two_sub_one_eq_mod, Nat.mod_eq_of_lt hv,
    Nat.shiftLeft_shiftRight]

theorem extract_insert_roundtrip_witness :
    (BitField.mk 3 5 56).extract ((BitField.mk 3 5 56).insert 5 6) = 5 :=
  extract_insert_roundtrip 3 5 (BitField.mk 3 5 56) rfl (by norm_num) 5 6
    (by decide) (by decide) (by decide)

/-- C4: `extract` computes `(mask &&& word) >>> from_bit`, is total, and its
result is at most `2 ^ (to_bit - from_bit + 1) - 1`. -/
theorem extract_spec (f t : Int) (bf : BitField)
    (h : BitField.init f t = some bf) (word : Nat) (hw : word < 2 ^ 32) :
    bf.extract word = (bf.mask &&& word) >>> bf.from_bit ∧
    bf.extract word ≤ 2 ^ (bf.to_bit - bf.from_bit + 1) - 1 := by
  refine ⟨rfl, ?_⟩
  unfold BitField.extract
  have h2 : bf.mask >>> bf.from_bit = 2 ^ (bf.to_bit - bf.from_bit + 1) - 1 := by
    rw [mask_shiftLeft h, Nat.shiftLeft_shiftRight]
  calc (bf.mask &&& word) >>> bf.from_bit
      ≤ bf.mask >>> bf.from_bit := by
        simp only [Nat.shiftRight_eq_div_pow]
        exact Nat.div_le_div_right Nat.and_le_left
    _ = 2 ^ (bf.to_bit - bf.from_bit + 1) - 1 := h2

theorem extract_spec_witness :
    (BitField.mk 3 5 56).extract 181 =
      ((BitField.mk 3 5 56).mask &&& 181) >>> (BitField.mk 3 5 56).from_bit ∧
    (BitField.mk 3 5 56).extract 181 ≤
      2 ^ ((BitField.mk 3 5 56).to_bit - (BitField.mk 3 5 56).from_bit + 1) - 1 :=
  extract_spec 3 5 (BitField.mk 3 5 56) rfl 181 (by decide)

/-- C6: `insert` silently truncates oversized values:
`insert value word = insert (value &&& (mask >>> from_bit)) word`. -/
theorem insert_truncates (f t : Int) (bf : BitField)
    (h : BitField.init f t = some bf) (value word : Nat) :
    bf.insert value word =
      bf.insert (value &&& (bf.mask >>> bf.from_bit)) word := by
  have h2 : bf.mask >>> bf.from_bit = 2 ^ (bf.to_bit - bf.from_bit + 1) - 1 := by
    rw [mask_shiftLeft h, Nat.shiftLeft_shiftRight]
  unfold BitField.insert
  rw [h2, mask_shiftLeft h, and_shiftLeft_distrib, and_shiftLeft_distrib,
    Nat.and_pow_two_sub_one_eq_mod, Nat.and_pow_two_sub_one_eq_mod,
    Nat.mod_mod_of_dvd value dvd_rfl]

theorem insert_truncates_witness :
    (BitField.mk 3 5 56).insert 29 6 =
      (BitField.mk 3 5 56).insert
        (29 &&& ((BitField.mk 3 5 56).mask >>> (BitField.mk 3 5 56).from_bit)) 6 :=
  insert_truncates 3 5 (BitField.mk 3 5 56) rfl 29 6

/-- C10: frame property of `insert`: bits outside `from_bit..to_bit` are those
of `word` (equivalently, both sides agree under `&&& ~mask` over 32 bits), and
bits already set in `word` are never cleared. -/
theorem insert_frame (f t : Int) (bf : BitField)
    (h : BitField.init f t = some bf) (value word : Nat) (hw : word < 2 ^ 32) :
    (∀ i, i < 32 → (i < bf.from_bit ∨ bf.to_bit < i) →
      (bf.insert value word).testBit i = word.testBit i) ∧
    bf.insert value word &&& Nat.ldiff (2 ^ 32 - 1) bf.mask =
      word &&& Nat.ldiff (2 ^ 32 - 1) bf.mask ∧
    (∀ i, word.testBit i = true → (bf.insert value word).testBit i = true) := by
  obtain ⟨_, _, _, _, _, _, hft, _⟩ := init_spec h
  refine ⟨?_, ?_, ?_⟩
  · intro i hi hout
    have hm : bf.mask.testBit i = false := by
      rw [mask_shiftLeft h]
      simp only [Nat.testBit_shiftLeft, Nat.testBit_two_pow_sub_one, ge_iff_le,
        Bool.and_eq_false_imp, decide_eq_true_eq, decide_eq_false_iff_not]
      intro hfi
      omega
    unfold BitField.insert
    simp [Nat.testBit_or, Nat.testBit_and, hm]
  · apply Nat.eq_of_testBit_eq
    intro i
    unfold BitField.insert
    simp only [Nat.testBit_and, Nat.testBit_or, Nat.testBit_ldiff]
    cases hmi : bf.mask.testBit i <;> simp
  · intro i hw1
    unfold BitField.insert
    simp [Nat.testBit_or, hw1]

theorem insert_frame_witness :
    (∀ i, i < 32 → (i < (BitField.mk 3 5 56).from_bit ∨ (BitField.mk 3 5 56).to_bit < i) →
      ((BitField.mk 3 5 56).insert 5 6).testBit i = (6 : Nat).testBit i) ∧
    (BitField.mk 3 5 56).insert 5 6 &&& Nat.ldiff (2 ^ 32 - 1) (BitField.mk 3 5 56).mask =
      6 &&& Nat.ldiff (2 ^ 32 - 1) (BitField.mk 3 5 56).mask ∧
    (∀ i, (6 : Nat).testBit i = true →
      ((BitField.mk 3 5 56).insert 5 6).testBit i = true) :=
  insert_frame 3 5 (BitField.mk 3 5 56) rfl 5 6 (by decide)

/-! ### sign_extend lemmas -/

/-- `sign_extend` on a value below the sign bit returns it unchanged. -/
theorem sign_extend_of_sign_clear {field width : Int} (h1 : 1 < width)
    (h0 : 0 ≤ field) (hlt : field < 2 ^ (width - 1).toNat) :
    sign_extend field width = some field := by
  have hmono : ((2:Int) ^ (width - 1).toNat) ≤ 2 ^ (width + 1).toNat :=
    pow_le_pow_right₀ (by norm_num) (by omega)
  have hnat : field.toNat < 2 ^ (width - 1).toNat :=
    (Int.toNat_lt h0).mpr (by exact_mod_cast hlt)
  have hand : field.toNat &&& 2 ^ (width - 1).toNat = 0 := by
    rw [Nat.and_two_pow, Nat.testBit_lt_two_pow hnat]
    simp
  simp only [sign_extend]
  rw [if_pos h1, if_pos ⟨h0, lt_of_lt_of_le hlt hmono⟩,
    if_neg (not_ne_iff.mpr hand)]

/-- `sign_extend` on a value with the sign bit set (within the tight bound)
subtracts `2 ^ width`. -/
theorem sign_extend_of_sign_set {field width : Int} (h1 : 1 < width)
    (hge : 2 ^ (width - 1).toNat ≤ field) (hlt : field < 2 ^ width.toNat) :
    sign_extend field width = some (field - 2 ^ width.toNat) := by
  have h0 : 0 ≤ field := le_trans (by positivity) hge
  have hkk : width.toNat = (width - 1).toNat + 1 := by omega
  have hgeN : 2 ^ (width - 1).toNat ≤ field.toNat :=
    (Int.le_toNat h0).mpr (by exact_mod_cast hge)
  have hltN : field.toNat < 2 ^ ((width - 1).toNat + 1) :=
    (Int.toNat_lt h0).mpr (by exact_mod_cast hkk ▸ hlt)
  have hmono : ((2:Int) ^ width.toNat) ≤ 2 ^ (width + 1).toNat :=
    pow_le_pow_right₀ (by norm_num) (by omega)
  have hdiv : field.toNat / 2 ^ (width - 1).toNat = 1 := by
    apply Nat.div_eq_of_lt_le (by omega)
    have : 2 ^ ((width - 1).toNat + 1) = 2 ^ (width - 1).toNat * 2 := by
      rw [Nat.pow_succ]
    omega
  have htest : field.toNat.testBit (width - 1).toNat = true := by
    rw [Nat.testBit_to_div_mod, hdiv]
    decide
  have hand : field.toNat &&& 2 ^ (width - 1).toNat ≠ 0 := by
    rw [Nat.and_two_pow, htest]
    simp
  have hmod : field.toNat % 2 ^ (width - 1).toNat
      = field.toNat - 2 ^ (width - 1).toNat := by
    have hdm := Nat.div_add_mod field.toNat (2 ^ (width - 1).toNat)
    rw [hdiv] at hdm
    omega
  have hfield : ((field.toNat : Int)) = field := Int.toNat_of_nonneg h0
  simp only [sign_extend]
  rw [if_pos h1, if_pos ⟨h0, lt_of_lt_of_le hlt hmono⟩, if_pos hand,
    Nat.and_pow_two_sub_one_eq_mod, hmod]
  congr 1
  have hpow : ((2 ^ (width - 1).toNat : Nat) : Int) = 2 ^ (width - 1).toNat := by
    norm_cast
  have hcast : ((field.toNat - 2 ^ (width - 1).toNat : Nat) : Int)
      = field - 2 ^ (width - 1).toNat := by
    rw [Nat.cast_sub hgeN, hfield, hpow]
  rw [hcast, hpow]
  have hstep : (2:Int) ^ width.toNat = 2 ^ (width - 1).toNat * 2 := by
    rw [hkk, pow_succ]
  rw [hstep]
  ring

/-- C3 counterexample: `width = 2`, `field = 4` satisfies the stated
precondition (`4 < 2^(2+1)`), yet `sign_extend 4 2 = some 4`: the result is
nonnegative although `field ≥ 2^(2-1)`, and it differs from `field - 2^2`. -/
theorem sign_extend_sign_symmetry_counterexample :
    sign_extend 4 2 = some 4 ∧ (4:Int) < 2 ^ ((2:Int) + 1).toNat ∧
    (0:Int) ≤ 4 ∧ ¬ ((4:Int) < 2 ^ ((2:Int) - 1).toNat) ∧
    sign_extend 4 2 ≠ some ((4:Int) - 2 ^ (2:Int).toNat) := by
  refine ⟨rfl, by decide, by norm_num, by decide, by decide⟩

/-- C3 (amended): with the tight bound `field < 2^width`, `sign_extend` is
nonnegative iff `field < 2^(width-1)`, and equals `field - 2^width` when the
sign bit is set. -/
theorem sign_extend_sign_symmetry (field width : Int) (h1 : 1 < width)
    (h0 : 0 ≤ field) (hlt : field < 2 ^ width.toNat) :
    ∃ r, sign_extend field width = some r ∧
      (0 ≤ r ↔ field < 2 ^ (width - 1).toNat) ∧
      (2 ^ (width - 1).toNat ≤ field → r = field - 2 ^ width.toNat) := by
  by_cases hc : field < 2 ^ (width - 1).toNat
  · exact ⟨field, sign_extend_of_sign_clear h1 h0 hc,
      iff_of_true h0 hc, fun hge => absurd hc (not_lt.mpr hge)⟩
  · push_neg at hc
    refine ⟨field - 2 ^ width.toNat, sign_extend_of_sign_set h1 hc hlt,
      iff_of_false (not_le.mpr (sub_neg.mpr hlt)) (not_lt.mpr hc),
      fun _ => rfl⟩

theorem sign_extend_sign_symmetry_witness :
    ∃ r, sign_extend 7 3 = some r ∧
      (0 ≤ r ↔ (7:Int) < 2 ^ ((3:Int) - 1).toNat) ∧
      (2 ^ ((3:Int) - 1).toNat ≤ (7:Int) → r = 7 - 2 ^ (3:Int).toNat) :=
  sign_extend_sign_symmetry 7 3 (by norm_num) (by norm_num) (by decide)

/-- C9: `sign_extend` faults exactly when `width ≤ 1` or `field` lies outside
`[0, 2^(width+1))`; otherwise it returns a value. -/
theorem sign_extend_none_iff :
    ∀ field width : Int, sign_extend field width = none ↔
      width ≤ 1 ∨ field < 0 ∨ 2 ^ (width + 1).toNat ≤ field := by
  intro field width
  simp only [sign_extend]
  split
  case isTrue h1 =>
    split
    case isTrue h2 =>
      have hr : ¬ (width ≤ 1 ∨ field < 0 ∨ 2 ^ (width + 1).toNat ≤ field) := by
        push_neg
        exact ⟨h1, h2.1, h2.2⟩
      split <;> simp [hr]
    case isFalse h2 =>
      have hr : width ≤ 1 ∨ field < 0 ∨ 2 ^ (width + 1).toNat ≤ field := by
        rcases not_and_or.mp h2 with h | h
        · exact Or.inr (Or.inl (not_le.mp h))
        · exact Or.inr (Or.inr (not_lt.mp h))
      simp [hr]
  case isFalse h1 =>
    exact iff_of_true rfl (Or.inl (not_lt.mp h1))

/-- Range of `extract` for an accepted field (shared helper). -/
theorem extract_lt_two_pow {f t : Int} {bf : BitField}
    (h : BitField.init f t = some bf) (word : Nat) :
    bf.extract word < 2 ^ (bf.to_bit - bf.from_bit + 1) := by
  have h2 : bf.mask >>> bf.from_bit = 2 ^ (bf.to_bit - bf.from_bit + 1) - 1 := by
    rw [mask_shiftLeft h, Nat.shiftLeft_shiftRight]
  have hle : bf.extract word ≤ bf.mask >>> bf.from_bit := by
    unfold BitField.extract
    simp only [Nat.shiftRight_eq_div_pow]
    exact Nat.div_le_div_right Nat.and_le_left
  have hone : (1:Nat) ≤ 2 ^ (bf.to_bit - bf.from_bit + 1) := Nat.one_le_two_pow
  omega

/-- C8: for an accepted field of width greater than one and any 32-bit word,
`extract_signed` succeeds, its result lies in `[-2^(width-1), 2^(width-1)-1]`,
and it is `sign_extend` applied to `extract` at that width. -/
theorem extract_signed_spec (f t : Int) (bf : BitField)
    (h : BitField.init f t = some bf)
    (hw1 : 1 < bf.to_bit - bf.from_bit + 1) (word : Nat) (hw : word < 2 ^ 32) :
    ∃ r, bf.extract_signed word = some r ∧
      -(2 ^ (bf.to_bit - bf.from_bit + 1 - 1) : Int) ≤ r ∧
      r ≤ 2 ^ (bf.to_bit - bf.from_bit + 1 - 1) - 1 ∧
      sign_extend (bf.extract word) ((bf.to_bit : Int) - bf.from_bit + 1)
        = some r := by
  obtain ⟨_, _, _, _, _, _, hft, _⟩ := init_spec h
  have hwidth : (bf.to_bit : Int) - bf.from_bit + 1
      = ((bf.to_bit - bf.from_bit + 1 : Nat) : Int) := by
    push_cast
    omega
  have hW1 : 1 < ((bf.to_bit - bf.from_bit + 1 : Nat) : Int) := by
    exact_mod_cast hw1
  have hWm : (((bf.to_bit - bf.from_bit + 1 : Nat) : Int) - 1).toNat
      = bf.to_bit - bf.from_bit + 1 - 1 := by omega
  have hWt : (((bf.to_bit - bf.from_bit + 1 : Nat) : Int)).toNat
      = bf.to_bit - bf.from_bit + 1 := by omega
  have hext : bf.extract word < 2 ^ (bf.to_bit - bf.from_bit + 1) :=
    extract_lt_two_pow h word
  have hpos : (0:Int) ≤ (bf.extract word : Int) := by positivity
  have he : bf.to_bit - bf.from_bit + 1 - 1 + 1 = bf.to_bit - bf.from_bit + 1 := by
    omega
  have hsplit : (2:Int) ^ (bf.to_bit - bf.from_bit + 1)
      = 2 ^ (bf.to_bit - bf.from_bit + 1 - 1) * 2 := by
    conv_lhs => rw [← he]
    rw [pow_succ]
  by_cases hc : bf.extract word < 2 ^ (bf.to_bit - bf.from_bit + 1 - 1)
  · have hcI : ((bf.extract word : Nat) : Int)
        < 2 ^ (bf.to_bit - bf.from_bit + 1 - 1) := by exact_mod_cast hc
    have hr := sign_extend_of_sign_clear hW1 hpos (by rw [hWm]; exact hcI)
    refine ⟨bf.extract word, ?_, ?_, ?_, ?_⟩
    · unfold BitField.extract_signed
      rw [hwidth]
      exact hr
    · have := pow_pos (by norm_num : (0:Int) < 2) (bf.to_bit - bf.from_bit + 1 - 1)
      linarith
    · linarith
    · rw [hwidth]
      exact hr
  · push_neg at hc
    have hcI : (2:Int) ^ (bf.to_bit - bf.from_bit + 1 - 1)
        ≤ ((bf.extract word : Nat) : Int) := by exact_mod_cast hc
    have hextI : ((bf.extract word : Nat) : Int)
        < 2 ^ (bf.to_bit - bf.from_bit + 1) := by exact_mod_cast hext
    have hge' : (2:Int) ^ ((((bf.to_bit - bf.from_bit + 1 : Nat) : Int)) - 1).toNat
        ≤ ((bf.extract word : Nat) : Int) := by
      rw [hWm]
      exact hcI
    have hlt' : ((bf.extract word : Nat) : Int)
        < 2 ^ ((((bf.to_bit - bf.from_bit + 1 : Nat) : Int))).toNat := by
      rw [hWt]
      exact hextI
    have hr := sign_extend_of_sign_set hW1 hge' hlt'
    rw [hWt] at hr
    refine ⟨(bf.extract word : Int) - 2 ^ (bf.to_bit - bf.from_bit + 1), ?_, ?_, ?_, ?_⟩
    · unfold BitField.extract_signed
      rw [hwidth]
      exact hr
    · rw [hsplit]
      linarith
    · have := pow_pos (by norm_num : (0:Int) < 2) (bf.to_bit - bf.from_bit + 1 - 1)
      rw [hsplit]
      linarith
    · rw [hwidth]
      exact hr

theorem extract_signed_spec_witness :
    ∃ r, (BitField.mk 0 7 255).extract_signed 255 = some r ∧
      -(2 ^ ((BitField.mk 0 7 255).to_bit - (BitField.mk 0 7 255).from_bit + 1 - 1) : Int) ≤ r ∧
      r ≤ 2 ^ ((BitField.mk 0 7 255).to_bit - (BitField.mk 0 7 255).from_bit + 1 - 1) - 1 ∧
      sign_extend ((BitField.mk 0 7 255).extract 255)
        (((BitField.mk 0 7 255).to_bit : Int) - (BitField.mk 0 7 255).from_bit + 1) = some r :=
  extract_signed_spec 0 7 (BitField.mk 0 7 255) rfl (by decide) 255 (by decide)
